import Mathlib

/-!
Verification of the distlib specification against the code.

Part 1: the `Sequencer` (dependency-ordered step sequencer).  Only the
tests of the sequencer are in the repository snapshot; the sequencer
itself is modelled from the specification (spec.md §3–§4), which gives
the data model (a set of known steps plus a direct must-precede
relation) and the query algorithm (a depth-first, cycle-safe visit).

Part 2: the metadata version negotiation (`_best_version`) and the
default-value behaviour of `LegacyMetadata.get`, embedded from
src/distlib/metadata.py.
-/

namespace Distlib

/-- Modelled from the spec: the Sequencer state (spec.md §3).  The missing
source is `distlib/util.py`'s `Sequencer` class.  `steps` is the set of all
known step identifiers (kept as an insertion-ordered list), `rels` the set of
direct relations `(predecessor, successor)` that were added. -/
structure Sequencer where
  steps : List String
  rels : List (String × String)
deriving Repr, DecidableEq

/-- Modelled from the spec: a Sequencer is constructed empty (spec.md §3). -/
def Sequencer.empty : Sequencer := ⟨[], []⟩

/-- Modelled from the spec: `add_step(step)` registers `step` with no
relations if not already known; no-op if already present (spec.md §4.1). -/
def add_step (g : Sequencer) (s : String) : Sequencer :=
  if s ∈ g.steps then g else { g with steps := g.steps ++ [s] }

/-- Modelled from the spec: `add(predecessor, successor)` records that
`predecessor` must run before `successor`; both steps are implicitly
registered; the relation set de-duplicates (spec.md §4.1). -/
def add (g : Sequencer) (p s : String) : Sequencer :=
  let g1 := add_step (add_step g p) s
  if (p, s) ∈ g1.rels then g1 else { g1 with rels := g1.rels ++ [(p, s)] }

/-- Modelled from the spec: `remove(predecessor, successor)` deletes the
specific direct relation; fails (here: `none`) with an unknown-relation
error if the pair was never added; does not remove the steps (spec.md §4.1). -/
def remove (g : Sequencer) (p s : String) : Option Sequencer :=
  if (p, s) ∈ g.rels then
    some { g with rels := g.rels.filter (fun pr => pr ≠ (p, s)) }
  else
    none

/-- Modelled from the spec: `remove_step(step)` deletes `step` from `steps`
and purges it from every predecessor/successor set; no-op if unknown
(spec.md §4.1). -/
def remove_step (g : Sequencer) (s : String) : Sequencer :=
  { steps := g.steps.filter (fun x => x ≠ s),
    rels := g.rels.filter (fun pr => pr.1 ≠ s ∧ pr.2 ≠ s) }

/-- Modelled from the spec: `is_step(step)` is true iff `step` is currently
known (spec.md §4.1). -/
def is_step (g : Sequencer) (s : String) : Bool := s ∈ g.steps

/-- Modelled from the spec: the direct predecessors of a step (spec.md §3:
`dependencies` maps a step to the set of steps that must run strictly before
it; the iteration order is deterministic but otherwise unspecified, so we
iterate in relation-insertion order). -/
def preds (g : Sequencer) (s : String) : List String :=
  (g.rels.filter (fun pr => pr.2 = s)).map Prod.fst

/-- All step identifiers the visit can ever touch: known steps plus relation
predecessors.  Used to size the recursion fuel. -/
def nodes (g : Sequencer) : List String := g.steps ++ g.rels.map Prod.fst

/-- Modelled from the spec: the recursive `visit` of `get_steps`
(spec.md §4.1, "Algorithm (depth-first, cycle-safe)").  The accumulator pairs
the `seen` set with the `result` sequence.  A step already seen is skipped
(this breaks cycles); otherwise it is marked seen, its direct predecessors
are visited recursively, and the step is appended to the result.  Recursion
is bounded by a fuel parameter; `get_steps` supplies enough fuel that the
bound is never hit (every recursive call has marked a fresh node seen). -/
def visit (g : Sequencer) : Nat → String → List String × List String → List String × List String
  | 0, _, acc => acc
  | fuel + 1, step, acc =>
    if step ∈ acc.1 then acc
    else
      let acc1 := (preds g step).foldl (fun a p => visit g fuel p a) (acc.1 ++ [step], acc.2)
      (acc1.1, acc1.2 ++ [step])

/-- Modelled from the spec: `get_steps(final)` fails (here: `none`) with an
unknown-step error if `final` is not known, and otherwise returns the result
of `visit final` started from an empty seen set and result (spec.md §4.1). -/
def get_steps (g : Sequencer) (final : String) : Option (List String) :=
  if final ∈ g.steps then
    some (visit g ((nodes g).length + 1) final ([], [])).2
  else
    none

/-- The direct must-precede relation recorded in a Sequencer. -/
def RelOf (g : Sequencer) (a b : String) : Prop := (a, b) ∈ g.rels

/-- The relation graph has no (nonempty) cycle: no added relation is closed
back by a path of added relations. -/
def Acyclic (g : Sequencer) : Prop :=
  ∀ p s : String, RelOf g p s → ¬ Relation.ReflTransGen (RelOf g) s p

/-- The three-step cycle state of the spec's cycle-termination property:
`add('A','B'); add('B','C'); add('C','A')`. -/
def cycle3 : Sequencer :=
  add (add (add Sequencer.empty "A" "B") "B" "C") "C" "A"

/-- The four-step state of the spec's cycle-rewrite scenario before the cycle
is closed: `add('A','B'); add('B','C'); add('C','D')`. -/
def chain4 : Sequencer :=
  add (add (add Sequencer.empty "A" "B") "B" "C") "C" "D"

/-- The cycle-rewrite state: `chain4` followed by `add('C','A')`. -/
def chain4cyc : Sequencer := add chain4 "C" "A"

/-- Predicate: `a` occurs strictly before `b` in `l`. -/
def Before (l : List String) (a b : String) : Prop := [a, b].Sublist l

instance (l : List String) (a b : String) : Decidable (Before l a b) :=
  inferInstanceAs (Decidable ([a, b].Sublist l))

/-! ### Basic lemmas about the mutating operations -/

lemma add_step_rels (g : Sequencer) (y : String) : (add_step g y).rels = g.rels := by
  unfold add_step
  split <;> rfl

lemma mem_add_step_steps (g : Sequencer) (x y : String) :
    x ∈ (add_step g y).steps ↔ x ∈ g.steps ∨ x = y := by
  unfold add_step
  split
  next h =>
    constructor
    · exact Or.inl
    · rintro (hx | rfl)
      · exact hx
      · exact h
  next h => simp [or_comm]

lemma self_mem_add_step_steps (g : Sequencer) (y : String) : y ∈ (add_step g y).steps :=
  (mem_add_step_steps g y y).mpr (Or.inr rfl)

lemma add_step_of_mem {g : Sequencer} {y : String} (h : y ∈ g.steps) : add_step g y = g := by
  unfold add_step
  simp [h]

lemma add_steps_eq (g : Sequencer) (p s : String) :
    (add g p s).steps = (add_step (add_step g p) s).steps := by
  unfold add
  dsimp only
  split <;> rfl

lemma mem_add_steps_left (g : Sequencer) (p s : String) : p ∈ (add g p s).steps := by
  rw [add_steps_eq]
  exact (mem_add_step_steps _ p s).mpr (Or.inl (self_mem_add_step_steps g p))

lemma mem_add_steps_right (g : Sequencer) (p s : String) : s ∈ (add g p s).steps := by
  rw [add_steps_eq]
  exact self_mem_add_step_steps _ s

lemma mem_add_rels (g : Sequencer) (p s : String) : (p, s) ∈ (add g p s).rels := by
  unfold add
  dsimp only
  split
  next h => exact h
  next h => simp

/-- Claim C5 core: once both endpoints are registered and the pair recorded,
`add` is the identity. -/
lemma add_of_done {g : Sequencer} {p s : String} (hp : p ∈ g.steps) (hs : s ∈ g.steps)
    (hr : (p, s) ∈ g.rels) : add g p s = g := by
  unfold add
  rw [add_step_of_mem hp, add_step_of_mem hs]
  simp [hr]

/-! ### Claim theorems: the easy, mostly concrete ones -/

/-- C5: calling `add(p, s)` twice in succession leaves the Sequencer in a
state observably equal to calling it once: the relation set de-duplicates,
and `add` (a total function here) never fails, even when it introduces a
cycle. -/
theorem add_idempotent (g : Sequencer) (p s : String) :
    add (add g p s) p s = add g p s :=
  add_of_done (mem_add_steps_left g p s) (mem_add_steps_right g p s) (mem_add_rels g p s)

/-- C6: `remove(p, s)` on a pair that was never added fails with the
unknown-relation error (modelled as `none`), so no mutated state is ever
produced: the caller's state is left unchanged. -/
theorem remove_unknown_relation (g : Sequencer) (p s : String)
    (h : (p, s) ∉ g.rels) : remove g p s = none := by
  simp [remove, h]

/-- C4: `get_steps` on an unknown step fails with the unknown-step error
(modelled as `none`) and never returns a truncated result; the error is the
direct value of the call. -/
theorem get_steps_unknown (g : Sequencer) (x : String)
    (h : is_step g x = false) : get_steps g x = none := by
  have hx : x ∉ g.steps := by
    simpa [is_step] using h
  simp [get_steps, hx]

/-- C4 witness: the unknown step `E` of the cycle test. -/
theorem get_steps_unknown_witness :
    is_step chain4cyc "E" = false ∧ get_steps chain4cyc "E" = none :=
  ⟨by decide, get_steps_unknown chain4cyc "E" (by decide)⟩

/-- C6 witness: removing a relation that was never added from the 3-cycle
state fails. -/
theorem remove_unknown_relation_witness :
    ("A", "C") ∉ cycle3.rels ∧ remove cycle3 "A" "C" = none :=
  ⟨by decide, remove_unknown_relation cycle3 "A" "C" (by decide)⟩

/-- C2: `get_steps` terminates (it is a total function and returns a result
on every known step, whatever the relation graph), and on the three-step
cycle `add('A','B'); add('B','C'); add('C','A')` queried as `get_steps('C')`
it returns a permutation of `{A, B, C}` ending in `C` that violates at most
one of the three edges. -/
theorem get_steps_cycle_termination :
    (∀ (g : Sequencer) (final : String), is_step g final = true →
      ∃ l, get_steps g final = some l) ∧
    (∃ l, get_steps cycle3 "C" = some l ∧ l.Perm ["A", "B", "C"] ∧
      l.getLast? = some "C" ∧
      (cycle3.rels.countP (fun pr => !decide (Before l pr.1 pr.2))) ≤ 1) := by
  constructor
  · intro g final h
    have hx : final ∈ g.steps := by
      simpa [is_step] using h
    exact ⟨(visit g ((nodes g).length + 1) final ([], [])).2, by simp [get_steps, hx]⟩
  · exact ⟨["A", "B", "C"], by decide, by decide, by decide, by decide⟩

/-- C2 witness: the first conjunct applied to the concrete cycle state. -/
theorem get_steps_cycle_termination_witness :
    ∃ l, get_steps cycle3 "C" = some l :=
  get_steps_cycle_termination.1 cycle3 "C" (by decide)

/-- C7: from empty, after `add('A','B'); add('B','C'); add('C','D')` the
query `get_steps('D')` is exactly `['A','B','C','D']`; after additionally
`add('C','A')` it still returns a 4-element permutation of those steps that
ends in `'D'` and respects the one edge not involved in the cycle,
`('C','D')`. -/
theorem get_steps_cycle_rewrite :
    get_steps chain4 "D" = some ["A", "B", "C", "D"] ∧
    ∃ l, get_steps chain4cyc "D" = some l ∧ l.length = 4 ∧
      l.Perm ["A", "B", "C", "D"] ∧ l.getLast? = some "D" ∧ Before l "C" "D" := by
  refine ⟨by decide, ⟨["A", "B", "C", "D"], by decide, by decide, by decide, by decide, by decide⟩⟩

/-! ### The shape of a visit: how one call grows the accumulator

`Advances g ts a b` says that the call turned accumulator `a` into `b` by
appending a duplicate-free block of fresh step names to the seen set and a
permutation of that same block to the result, every appended name being one
of the visit targets `ts` or a relation predecessor, and every name appended
to the result having a relation path to one of the targets. -/

def Advances (g : Sequencer) (ts : List String) (a b : List String × List String) : Prop :=
  ∃ δ ρ : List String,
    b.1 = a.1 ++ δ ∧ b.2 = a.2 ++ ρ ∧ δ.Perm ρ ∧ δ.Nodup ∧
    (∀ x ∈ δ, x ∉ a.1) ∧
    (∀ x ∈ δ, x ∈ ts ∨ x ∈ g.rels.map Prod.fst) ∧
    (∀ x ∈ ρ, ∃ t ∈ ts, Relation.ReflTransGen (RelOf g) x t)

lemma Advances.refl (g : Sequencer) (ts : List String) (a : List String × List String) :
    Advances g ts a a := by
  exact ⟨[], [], by simp, by simp, .nil, .nil, by simp, by simp, by simp⟩

lemma Advances.mono {g : Sequencer} {ts ts' : List String} {a b : List String × List String}
    (hsub : ∀ x ∈ ts, x ∈ ts') (h : Advances g ts a b) : Advances g ts' a b := by
  obtain ⟨δ, ρ, h1, h2, h3, h4, h5, h6, h7⟩ := h
  refine ⟨δ, ρ, h1, h2, h3, h4, h5, ?_, ?_⟩
  · intro x hx
    rcases h6 x hx with h | h
    · exact Or.inl (hsub x h)
    · exact Or.inr h
  · intro x hx
    obtain ⟨t, ht, hp⟩ := h7 x hx
    exact ⟨t, hsub t ht, hp⟩

lemma Advances.trans {g : Sequencer} {ts : List String} {a b c : List String × List String}
    (hab : Advances g ts a b) (hbc : Advances g ts b c) : Advances g ts a c := by
  obtain ⟨δ1, ρ1, e1, e2, p1, n1, f1, t1, q1⟩ := hab
  obtain ⟨δ2, ρ2, e1', e2', p2, n2, f2, t2, q2⟩ := hbc
  refine ⟨δ1 ++ δ2, ρ1 ++ ρ2, ?_, ?_, p1.append p2, ?_, ?_, ?_, ?_⟩
  · rw [e1', e1, List.append_assoc]
  · rw [e2', e2, List.append_assoc]
  · rw [List.nodup_append]
    refine ⟨n1, n2, ?_⟩
    intro x hx1 hx2
    exact f2 x hx2 (by rw [e1]; exact List.mem_append_right _ hx1)
  · intro x hx
    rcases List.mem_append.mp hx with h | h
    · exact f1 x h
    · intro hxa
      exact f2 x h (by rw [e1]; exact List.mem_append_left _ hxa)
  · intro x hx
    rcases List.mem_append.mp hx with h | h
    · exact t1 x h
    · exact t2 x h
  · intro x hx
    rcases List.mem_append.mp hx with h | h
    · exact q1 x h
    · exact q2 x h

lemma mem_preds {g : Sequencer} {t s : String} : t ∈ preds g s ↔ (t, s) ∈ g.rels := by
  unfold preds
  constructor
  · intro h
    obtain ⟨pr, hpr, rfl⟩ := List.mem_map.mp h
    obtain ⟨hmem, hsnd⟩ := List.mem_filter.mp hpr
    have h2 : pr.2 = s := by simpa using hsnd
    have hpr' : pr = (pr.1, s) := by rw [← h2]
    rw [← hpr']
    exact hmem
  · intro h
    exact List.mem_map.mpr ⟨(t, s), List.mem_filter.mpr ⟨h, by simp⟩, rfl⟩

lemma preds_subset_fst {g : Sequencer} {s : String} :
    ∀ x ∈ preds g s, x ∈ g.rels.map Prod.fst := by
  intro x hx
  exact List.mem_map.mpr ⟨(x, s), mem_preds.mp hx, rfl⟩

/-- The fold over a predecessor list, given the visit property at the same
fuel, advances the accumulator and (for positive fuel) leaves every list
element in the seen set. -/
lemma fold_advances (g : Sequencer) (fuel : Nat)
    (hv : ∀ step a, Advances g [step] a (visit g fuel step a) ∧
      (1 ≤ fuel → step ∈ (visit g fuel step a).1)) :
    ∀ (l : List String) (a : List String × List String),
      Advances g l a (l.foldl (fun a p => visit g fuel p a) a) ∧
      (1 ≤ fuel → ∀ p ∈ l, p ∈ (l.foldl (fun a p => visit g fuel p a) a).1) := by
  intro l
  induction l with
  | nil =>
    intro a
    exact ⟨Advances.refl g [] a, by simp⟩
  | cons p ps ih =>
    intro a
    have hstep := hv p a
    have hrest := ih (visit g fuel p a)
    have hadv : Advances g (p :: ps) a (List.foldl (fun a p => visit g fuel p a) a (p :: ps)) := by
      rw [List.foldl_cons]
      refine Advances.trans (Advances.mono ?_ hstep.1) (Advances.mono ?_ hrest.1)
      · intro x hx
        simp only [List.mem_singleton] at hx
        simp [hx]
      · intro x hx
        exact List.mem_cons_of_mem _ hx
    refine ⟨hadv, ?_⟩
    intro hfuel q hq
    rw [List.foldl_cons]
    rcases List.mem_cons.mp hq with rfl | hq'
    · obtain ⟨δ, ρ, e1, _⟩ := hrest.1
      rw [e1]
      exact List.mem_append_left _ (hstep.2 hfuel)
    · exact hrest.2 hfuel q hq'

/-- Main shape lemma: any visit call advances the accumulator, and with
positive fuel the visited step ends up in the seen set. -/
lemma visit_advances (g : Sequencer) :
    ∀ (fuel : Nat) (step : String) (a : List String × List String),
      Advances g [step] a (visit g fuel step a) ∧
      (1 ≤ fuel → step ∈ (visit g fuel step a).1) := by
  intro fuel
  induction fuel with
  | zero =>
    intro step a
    exact ⟨Advances.refl g [step] a, by omega⟩
  | succ n ih =>
    intro step a
    by_cases hs : step ∈ a.1
    · rw [show visit g (n + 1) step a = a by simp [visit, hs]]
      exact ⟨Advances.refl g [step] a, fun _ => hs⟩
    · have hvis : visit g (n + 1) step a =
        (((preds g step).foldl (fun a p => visit g n p a) (a.1 ++ [step], a.2)).1,
         ((preds g step).foldl (fun a p => visit g n p a) (a.1 ++ [step], a.2)).2 ++ [step]) := by
        simp [visit, hs]
      obtain ⟨hfoldadv, hfoldmem⟩ := fold_advances g n ih (preds g step) (a.1 ++ [step], a.2)
      obtain ⟨δ, ρ, e1, e2, hperm, hnd, hfresh, htgt, hpath⟩ := hfoldadv
      constructor
      · refine ⟨step :: δ, ρ ++ [step], ?_, ?_, ?_, ?_, ?_, ?_, ?_⟩
        · rw [hvis]
          simpa [List.append_assoc] using e1
        · rw [hvis]
          dsimp only
          rw [e2]
          simp [List.append_assoc]
        · exact (hperm.cons step).trans (List.perm_append_singleton step ρ).symm
        · refine List.nodup_cons.mpr ⟨?_, hnd⟩
          intro hmem
          exact hfresh step hmem (List.mem_append_right _ (by simp))
        · intro x hx
          rcases List.mem_cons.mp hx with rfl | hx'
          · exact hs
          · intro hxa
            exact hfresh x hx' (List.mem_append_left _ hxa)
        · intro x hx
          rcases List.mem_cons.mp hx with rfl | hx'
          · simp
          · rcases htgt x hx' with h | h
            · exact Or.inr (preds_subset_fst x h)
            · exact Or.inr h
        · intro x hx
          rcases List.mem_append.mp hx with h | h
          · obtain ⟨t, ht, hp⟩ := hpath x h
            exact ⟨step, by simp, hp.tail (mem_preds.mp ht)⟩
          · simp only [List.mem_singleton] at h
            refine ⟨step, by simp, ?_⟩
            rw [h]
      · intro _
        rw [hvis]
        rw [e1]
        exact List.mem_append_left _ (List.mem_append_right _ (by simp))

/-! ### Fuel sufficiency

`deficit g seen` counts the node names not yet seen; it strictly decreases
whenever the visit marks a fresh node, so a fuel larger than the initial
deficit is never exhausted. -/

def deficit (g : Sequencer) (seen : List String) : Nat :=
  ((nodes g).filter (fun x => decide (x ∉ seen))).length

/-- Enough fuel remains for the current seen set. -/
def Hfuel (g : Sequencer) (fuel : Nat) (seen : List String) : Prop :=
  deficit g seen < fuel

lemma deficit_mono {g : Sequencer} {seen seen' : List String}
    (h : ∀ x ∈ seen, x ∈ seen') : deficit g seen' ≤ deficit g seen := by
  unfold deficit
  refine List.Sublist.length_le (List.monotone_filter_right _ ?_)
  intro a ha
  simp only [decide_eq_true_eq] at ha ⊢
  intro hmem
  exact ha (h a hmem)

lemma deficit_lt {g : Sequencer} {seen : List String} {a : String}
    (hmem : a ∈ nodes g) (hnot : a ∉ seen) :
    deficit g (seen ++ [a]) < deficit g seen := by
  unfold deficit
  have hsub : ((nodes g).filter (fun x => decide (x ∉ seen ++ [a]))).Sublist
      ((nodes g).filter (fun x => decide (x ∉ seen))) := by
    refine List.monotone_filter_right _ ?_
    intro x hx
    simp only [decide_eq_true_eq, List.mem_append] at hx ⊢
    intro hmem'
    exact hx (Or.inl hmem')
  refine lt_of_le_of_ne (List.Sublist.length_le hsub) ?_
  intro heq
  have : ((nodes g).filter (fun x => decide (x ∉ seen ++ [a]))) =
      ((nodes g).filter (fun x => decide (x ∉ seen))) :=
    List.Sublist.eq_of_length hsub heq
  have ha1 : a ∈ (nodes g).filter (fun x => decide (x ∉ seen)) :=
    List.mem_filter.mpr ⟨hmem, by simpa using hnot⟩
  rw [← this] at ha1
  have := List.mem_filter.mp ha1
  simp at this

/-! ### Closure: the result is closed under direct predecessors -/

/-- Every recorded relation whose successor is already in the result has its
predecessor in the seen set. -/
def SeenClosed (g : Sequencer) (a : List String × List String) : Prop :=
  ∀ pr ∈ g.rels, pr.2 ∈ a.2 → pr.1 ∈ a.1

lemma fold_closed (g : Sequencer) (fuel : Nat)
    (hv : ∀ step a, Hfuel g fuel a.1 → step ∈ nodes g → SeenClosed g a →
      SeenClosed g (visit g fuel step a)) :
    ∀ (l : List String) (a : List String × List String),
      (∀ p ∈ l, p ∈ nodes g) → Hfuel g fuel a.1 → SeenClosed g a →
      SeenClosed g (l.foldl (fun a p => visit g fuel p a) a) := by
  intro l
  induction l with
  | nil =>
    intro a _ _ hc
    exact hc
  | cons p ps ih =>
    intro a hsub hfuel hc
    rw [List.foldl_cons]
    refine ih _ (fun q hq => hsub q (List.mem_cons_of_mem _ hq)) ?_
      (hv p a hfuel (hsub p (List.mem_cons_self _ _)) hc)
    obtain ⟨δ, ρ, e1, _⟩ := (visit_advances g fuel p a).1
    refine lt_of_le_of_lt (deficit_mono ?_) hfuel
    rw [e1]
    intro x hx
    exact List.mem_append_left _ hx

lemma visit_closed (g : Sequencer) :
    ∀ (fuel : Nat) (step : String) (a : List String × List String),
      Hfuel g fuel a.1 → step ∈ nodes g → SeenClosed g a →
      SeenClosed g (visit g fuel step a) := by
  intro fuel
  induction fuel with
  | zero =>
    intro step a hfuel
    exact absurd hfuel (by simp [Hfuel])
  | succ n ih =>
    intro step a hfuel hnode hc
    by_cases hs : step ∈ a.1
    · rw [show visit g (n + 1) step a = a by simp [visit, hs]]
      exact hc
    · have hvis : visit g (n + 1) step a =
        (((preds g step).foldl (fun a p => visit g n p a) (a.1 ++ [step], a.2)).1,
         ((preds g step).foldl (fun a p => visit g n p a) (a.1 ++ [step], a.2)).2 ++ [step]) := by
        simp [visit, hs]
      have hfuel' : Hfuel g n (a.1 ++ [step]) := by
        have := deficit_lt hnode hs
        have hlt : deficit g a.1 < n + 1 := hfuel
        unfold Hfuel at *
        omega
      have hc' : SeenClosed g (a.1 ++ [step], a.2) := by
        intro pr hpr hmem
        exact List.mem_append_left _ (hc pr hpr hmem)
      have hfold := fold_closed g n ih (preds g step) (a.1 ++ [step], a.2)
        (fun p hp => List.mem_append_right _ (preds_subset_fst p hp)) hfuel' hc'
      have hn1 : 1 ≤ n := by
        unfold Hfuel at hfuel'
        omega
      have hmem := (fold_advances g n (visit_advances g n) (preds g step)
        (a.1 ++ [step], a.2)).2 hn1
      rw [hvis]
      intro pr hpr hsucc
      rcases List.mem_append.mp hsucc with h | h
      · exact hfold pr hpr h
      · simp only [List.mem_singleton] at h
        refine hmem pr.1 ?_
        refine mem_preds.mpr ?_
        have : (pr.1, step) = pr := by rw [← h]
        rw [this]
        exact hpr

/-! ### Top-level properties of `get_steps` that hold on every state -/

lemma hfuel_start (g : Sequencer) : Hfuel g ((nodes g).length + 1) [] := by
  unfold Hfuel deficit
  have := List.length_filter_le (fun x => decide (x ∉ ([] : List String))) (nodes g)
  omega

lemma final_mem_nodes {g : Sequencer} {final : String} (h : final ∈ g.steps) :
    final ∈ nodes g := List.mem_append_left _ h

/-- On a known step, `get_steps` returns a duplicate-free sequence that ends
in the step, consists exactly of the step's transitive predecessors
(including itself), and is closed under direct predecessors. -/
lemma get_steps_props {g : Sequencer} {final : String} (h : final ∈ g.steps) :
    ∃ l, get_steps g final = some l ∧ l.Nodup ∧ l.getLast? = some final ∧
      (∀ x, x ∈ l ↔ Relation.ReflTransGen (RelOf g) x final) ∧
      (∀ pr ∈ g.rels, pr.2 ∈ l → pr.1 ∈ l) := by
  have hget : get_steps g final = some (visit g ((nodes g).length + 1) final ([], [])).2 := by
    simp [get_steps, h]
  obtain ⟨hadv, hmem⟩ := visit_advances g ((nodes g).length + 1) final ([], [])
  obtain ⟨δ, ρ, e1, e2, hperm, hnd, _, _, hpath⟩ := hadv
  simp only [List.nil_append] at e1 e2
  have hmemiff : ∀ x, x ∈ (visit g ((nodes g).length + 1) final ([], [])).1 ↔
      x ∈ (visit g ((nodes g).length + 1) final ([], [])).2 := by
    intro x
    rw [e1, e2]
    exact hperm.mem_iff
  have hclosed : SeenClosed g (visit g ((nodes g).length + 1) final ([], [])) :=
    visit_closed g ((nodes g).length + 1) final ([], []) (hfuel_start g) (final_mem_nodes h)
      (fun pr _ hmem => absurd hmem (List.not_mem_nil _))
  have hclosed2 : ∀ pr ∈ g.rels, pr.2 ∈ (visit g ((nodes g).length + 1) final ([], [])).2 →
      pr.1 ∈ (visit g ((nodes g).length + 1) final ([], [])).2 := by
    intro pr hpr hs
    exact (hmemiff pr.1).mp (hclosed pr hpr hs)
  have hfinal : final ∈ (visit g ((nodes g).length + 1) final ([], [])).2 :=
    (hmemiff final).mp (hmem (by omega))
  refine ⟨(visit g ((nodes g).length + 1) final ([], [])).2, hget, ?_, ?_, ?_, hclosed2⟩
  · rw [e2]
    exact hperm.nodup hnd
  · have hstep : (visit g ((nodes g).length + 1) final ([], [])).2 =
        ((preds g final).foldl (fun a p => visit g ((nodes g).length) p a)
          (([] : List String) ++ [final], ([] : List String))).2 ++ [final] := by
      simp [visit, List.not_mem_nil]
    rw [hstep]
    exact List.getLast?_concat _
  · intro x
    constructor
    · intro hx
      have hx' : x ∈ ρ := by
        rw [e2] at hx
        exact hx
      obtain ⟨t, ht, hp⟩ := hpath x hx'
      simp only [List.mem_singleton] at ht
      rw [← ht]
      exact hp
    · intro hp
      induction hp using Relation.ReflTransGen.head_induction_on with
      | refl => exact hfinal
      | head hrel _ ih =>
        exact hclosed2 _ hrel ih

/-- C3: on every state and every known step `final`, the sequence returned
by `get_steps(final)` contains `final` exactly once, and `final` is its last
element. -/
theorem get_steps_final_last (g : Sequencer) (final : String)
    (h : is_step g final = true) :
    ∃ l, get_steps g final = some l ∧ l.getLast? = some final ∧ l.count final = 1 := by
  have h' : final ∈ g.steps := by simpa [is_step] using h
  obtain ⟨l, hget, hnd, hlast, hiff, _⟩ := get_steps_props h'
  refine ⟨l, hget, hlast, ?_⟩
  exact List.count_eq_one_of_mem hnd ((hiff final).mpr Relation.ReflTransGen.refl)

/-- C3 witness: the linear chain queried at `D`. -/
theorem get_steps_final_last_witness :
    ∃ l, get_steps chain4 "D" = some l ∧ l.getLast? = some "D" ∧ l.count "D" = 1 :=
  get_steps_final_last chain4 "D" (by decide)

/-! ### Ordering: on an acyclic relation graph the result is a topological
sort.  The proof tracks the conceptual recursion stack (steps whose visit has
started but not finished) as a ghost parameter of the invariant. -/

structure Inv (g : Sequencer) (stack : List String) (a : List String × List String) : Prop where
  nodup : a.2.Nodup
  res_seen : ∀ x ∈ a.2, x ∈ a.1
  seen_split : ∀ x ∈ a.1, x ∈ a.2 ∨ x ∈ stack
  stack_seen : ∀ x ∈ stack, x ∈ a.1
  stack_res : ∀ x ∈ stack, x ∉ a.2
  closed : ∀ pr ∈ g.rels, pr.2 ∈ a.2 → pr.1 ∈ a.1
  ordered : ∀ pr ∈ g.rels, pr.1 ∈ a.2 → pr.2 ∈ a.2 → Before a.2 pr.1 pr.2

lemma before_extend {l : List String} {a b c : String} (h : Before l a b) :
    Before (l ++ [c]) a b :=
  h.trans (List.sublist_append_left _ _)

lemma before_concat {l : List String} {a c : String} (ha : a ∈ l) :
    Before (l ++ [c]) a c :=
  List.Sublist.append (List.singleton_sublist.mpr ha) (List.Sublist.refl _)

lemma fold_inv (g : Sequencer) (fuel : Nat)
    (hv : ∀ step stack a, Hfuel g fuel a.1 → step ∈ nodes g →
      (∀ x ∈ stack, Relation.ReflTransGen (RelOf g) step x) →
      Inv g stack a →
      Inv g stack (visit g fuel step a) ∧
      (∀ x ∈ (visit g fuel step a).2, x ∈ a.2 ∨ Relation.ReflTransGen (RelOf g) x step)) :
    ∀ (l : List String) (stack : List String) (a : List String × List String),
      (∀ p ∈ l, p ∈ nodes g) → Hfuel g fuel a.1 →
      (∀ p ∈ l, ∀ x ∈ stack, Relation.ReflTransGen (RelOf g) p x) →
      Inv g stack a →
      Inv g stack (l.foldl (fun a p => visit g fuel p a) a) ∧
      (∀ x ∈ (l.foldl (fun a p => visit g fuel p a) a).2,
        x ∈ a.2 ∨ ∃ p ∈ l, Relation.ReflTransGen (RelOf g) x p) := by
  intro l
  induction l with
  | nil =>
    intro stack a _ _ _ hinv
    exact ⟨hinv, fun x hx => Or.inl hx⟩
  | cons p ps ih =>
    intro stack a hnodes hfuel hpaths hinv
    rw [List.foldl_cons]
    obtain ⟨hinv1, hco1⟩ := hv p stack a hfuel (hnodes p (List.mem_cons_self _ _))
      (hpaths p (List.mem_cons_self _ _)) hinv
    have hfuel1 : Hfuel g fuel (visit g fuel p a).1 := by
      obtain ⟨δ, ρ, e1, _⟩ := (visit_advances g fuel p a).1
      refine lt_of_le_of_lt (deficit_mono ?_) hfuel
      rw [e1]
      intro x hx
      exact List.mem_append_left _ hx
    obtain ⟨hinv2, hco2⟩ := ih stack (visit g fuel p a)
      (fun q hq => hnodes q (List.mem_cons_of_mem _ hq)) hfuel1
      (fun q hq => hpaths q (List.mem_cons_of_mem _ hq)) hinv1
    refine ⟨hinv2, ?_⟩
    intro x hx
    rcases hco2 x hx with hx1 | ⟨q, hq, hp⟩
    · rcases hco1 x hx1 with hmem | hpth
      · exact Or.inl hmem
      · exact Or.inr ⟨p, List.mem_cons_self _ _, hpth⟩
    · exact Or.inr ⟨q, List.mem_cons_of_mem _ hq, hp⟩

lemma visit_inv (g : Sequencer) (hacy : Acyclic g) :
    ∀ (fuel : Nat) (step : String) (stack : List String) (a : List String × List String),
      Hfuel g fuel a.1 → step ∈ nodes g →
      (∀ x ∈ stack, Relation.ReflTransGen (RelOf g) step x) →
      Inv g stack a →
      Inv g stack (visit g fuel step a) ∧
      (∀ x ∈ (visit g fuel step a).2, x ∈ a.2 ∨ Relation.ReflTransGen (RelOf g) x step) := by
  intro fuel
  induction fuel with
  | zero =>
    intro step stack a hfuel
    exact absurd hfuel (by simp [Hfuel])
  | succ n ih =>
    intro step stack a hfuel hnode hstackpath hinv
    by_cases hs : step ∈ a.1
    · rw [show visit g (n + 1) step a = a by simp [visit, hs]]
      exact ⟨hinv, fun x hx => Or.inl hx⟩
    · have hvis : visit g (n + 1) step a =
        (((preds g step).foldl (fun a p => visit g n p a) (a.1 ++ [step], a.2)).1,
         ((preds g step).foldl (fun a p => visit g n p a) (a.1 ++ [step], a.2)).2 ++ [step]) := by
        simp [visit, hs]
      have hstep_res : step ∉ a.2 := fun hc => hs (hinv.res_seen step hc)
      have hstep_stack : step ∉ stack := fun hc => hs (hinv.stack_seen step hc)
      have hinv' : Inv g (stack ++ [step]) (a.1 ++ [step], a.2) := by
        refine ⟨hinv.nodup, ?_, ?_, ?_, ?_, ?_, hinv.ordered⟩
        · intro x hx
          exact List.mem_append_left _ (hinv.res_seen x hx)
        · intro x hx
          rcases List.mem_append.mp hx with hx' | hx'
          · rcases hinv.seen_split x hx' with hr | hstk
            · exact Or.inl hr
            · exact Or.inr (List.mem_append_left _ hstk)
          · exact Or.inr (List.mem_append_right _ hx')
        · intro x hx
          rcases List.mem_append.mp hx with hx' | hx'
          · exact List.mem_append_left _ (hinv.stack_seen x hx')
          · exact List.mem_append_right _ hx'
        · intro x hx
          rcases List.mem_append.mp hx with hx' | hx'
          · exact hinv.stack_res x hx'
          · simp only [List.mem_singleton] at hx'
            rw [hx']
            exact hstep_res
        · intro pr hpr hmem
          exact List.mem_append_left _ (hinv.closed pr hpr hmem)
      have hfuel' : Hfuel g n (a.1 ++ [step]) := by
        have h1 := deficit_lt hnode hs
        have h2 : deficit g a.1 < n + 1 := hfuel
        unfold Hfuel
        omega
      have hpath' : ∀ p ∈ preds g step, ∀ x ∈ stack ++ [step],
          Relation.ReflTransGen (RelOf g) p x := by
        intro p hp x hx
        rcases List.mem_append.mp hx with hx' | hx'
        · exact (hstackpath x hx').head (mem_preds.mp hp)
        · simp only [List.mem_singleton] at hx'
          rw [hx']
          exact Relation.ReflTransGen.single (mem_preds.mp hp)
      obtain ⟨hinvF, hcoF⟩ := fold_inv g n ih (preds g step) (stack ++ [step])
        (a.1 ++ [step], a.2)
        (fun p hp => List.mem_append_right _ (preds_subset_fst p hp)) hfuel' hpath' hinv'
      obtain ⟨hadvF, hmemF⟩ := fold_advances g n (visit_advances g n) (preds g step)
        (a.1 ++ [step], a.2)
      obtain ⟨δ, ρ, eF1, eF2, hpermF, hndF, hfreshF, _, _⟩ := hadvF
      have hn1 : 1 ≤ n := by
        unfold Hfuel at hfuel'
        omega
      have hpredsF := hmemF hn1
      have hco_simple : ∀ x ∈ ((preds g step).foldl (fun a p => visit g n p a)
          (a.1 ++ [step], a.2)).2, x ∈ a.2 ∨ Relation.ReflTransGen (RelOf g) x step := by
        intro x hx
        rcases hcoF x hx with hmem | ⟨p, hp, hpth⟩
        · exact Or.inl hmem
        · exact Or.inr (hpth.tail (mem_preds.mp hp))
      have hstepF2 : step ∉ ((preds g step).foldl (fun a p => visit g n p a)
          (a.1 ++ [step], a.2)).2 :=
        hinvF.stack_res step (List.mem_append_right _ (by simp))
      have hstepF1 : step ∈ ((preds g step).foldl (fun a p => visit g n p a)
          (a.1 ++ [step], a.2)).1 := by
        rw [eF1]
        exact List.mem_append_left _ (List.mem_append_right _ (by simp))
      rw [hvis]
      constructor
      · refine ⟨?_, ?_, ?_, ?_, ?_, ?_, ?_⟩
        · rw [List.nodup_append]
          refine ⟨hinvF.nodup, by simp, ?_⟩
          intro x hx1 hx2
          simp only [List.mem_singleton] at hx2
          rw [hx2] at hx1
          exact hstepF2 hx1
        · intro x hx
          rcases List.mem_append.mp hx with hx' | hx'
          · exact hinvF.res_seen x hx'
          · simp only [List.mem_singleton] at hx'
            rw [hx']
            exact hstepF1
        · intro x hx
          rcases hinvF.seen_split x hx with hr | hstk
          · exact Or.inl (List.mem_append_left _ hr)
          · rcases List.mem_append.mp hstk with hstk' | hstk'
            · exact Or.inr hstk'
            · simp only [List.mem_singleton] at hstk'
              rw [hstk']
              exact Or.inl (List.mem_append_right _ (by simp))
        · intro x hx
          exact hinvF.stack_seen x (List.mem_append_left _ hx)
        · intro x hx
          intro hmem
          rcases List.mem_append.mp hmem with hx' | hx'
          · exact hinvF.stack_res x (List.mem_append_left _ hx) hx'
          · simp only [List.mem_singleton] at hx'
            rw [hx'] at hx
            exact hstep_stack hx
        · intro pr hpr hmem
          rcases List.mem_append.mp hmem with hx' | hx'
          · exact hinvF.closed pr hpr hx'
          · simp only [List.mem_singleton] at hx'
            refine hpredsF pr.1 ?_
            refine mem_preds.mpr ?_
            have heq : (pr.1, step) = pr := by rw [← hx']
            rw [heq]
            exact hpr
        · intro pr hpr h1 h2
          rcases List.mem_append.mp h1 with h1' | h1'
          · rcases List.mem_append.mp h2 with h2' | h2'
            · exact before_extend (hinvF.ordered pr hpr h1' h2')
            · simp only [List.mem_singleton] at h2'
              rw [h2']
              exact before_concat h1'
          · simp only [List.mem_singleton] at h1'
            rcases List.mem_append.mp h2 with h2' | h2'
            · exfalso
              have hrel : RelOf g step pr.2 := by
                have heq : (step, pr.2) = pr := by rw [← h1']
                unfold RelOf
                rw [heq]
                exact hpr
              rcases hco_simple pr.2 h2' with hmem | hpth
              · have := hinv.closed pr hpr hmem
                rw [h1'] at this
                exact hs this
              · exact hacy step pr.2 hrel hpth
            · exfalso
              simp only [List.mem_singleton] at h2'
              have hrel : RelOf g step step := by
                have heq : pr = (step, step) := Prod.ext h1' h2'
                unfold RelOf
                rw [← heq]
                exact hpr
              exact hacy step step hrel Relation.ReflTransGen.refl
      · intro x hx
        rcases List.mem_append.mp hx with hx' | hx'
        · exact hco_simple x hx'
        · simp only [List.mem_singleton] at hx'
          rw [hx']
          exact Or.inr Relation.ReflTransGen.refl

/-- The empty accumulator with an empty stack satisfies the invariant. -/
lemma inv_empty (g : Sequencer) : Inv g [] ([], []) := by
  refine ⟨List.nodup_nil, ?_, ?_, ?_, ?_, ?_, ?_⟩ <;> simp

/-- An order-respecting measure on step names certifies acyclicity. -/
lemma acyclic_of_measure {g : Sequencer} (f : String → Nat)
    (h : ∀ pr ∈ g.rels, f pr.1 < f pr.2) : Acyclic g := by
  intro p s hrel hpath
  have hle : ∀ a b : String, Relation.ReflTransGen (RelOf g) a b → f a ≤ f b := by
    intro a b hab
    induction hab with
    | refl => exact le_refl _
    | tail _ hbc ih => exact ih.trans (le_of_lt (h _ hbc))
  have h1 := hle s p hpath
  have h2 := h (p, s) hrel
  simp only at h2
  omega

/-- C1 (amended): for every Sequencer state and every known step `final`,
`get_steps(final)` returns a sequence containing `final` and every transitive
predecessor of `final`, each exactly once and nothing else; and provided the
relation graph is acyclic, for every direct relation `(p, s)` with both
endpoints in the result, `p` appears strictly before `s`. -/
theorem get_steps_topological (g : Sequencer) (final : String)
    (h : is_step g final = true) :
    ∃ l, get_steps g final = some l ∧ l.Nodup ∧
      (∀ x, x ∈ l ↔ Relation.ReflTransGen (RelOf g) x final) ∧
      (Acyclic g → ∀ pr ∈ g.rels, pr.1 ∈ l → pr.2 ∈ l → Before l pr.1 pr.2) := by
  have h' : final ∈ g.steps := by simpa [is_step] using h
  obtain ⟨l, hget, hnd, _, hiff, _⟩ := get_steps_props h'
  have hget2 : get_steps g final = some (visit g ((nodes g).length + 1) final ([], [])).2 := by
    simp [get_steps, h']
  have hl : l = (visit g ((nodes g).length + 1) final ([], [])).2 := by
    rw [hget] at hget2
    exact Option.some.inj hget2
  refine ⟨l, hget, hnd, hiff, ?_⟩
  intro hacy pr hpr h1 h2
  rw [hl] at h1 h2 ⊢
  exact ((visit_inv g hacy ((nodes g).length + 1) final [] ([], []) (hfuel_start g)
    (final_mem_nodes h') (by simp) (inv_empty g)).1).ordered pr hpr h1 h2

/-- C1 witness: the acyclic four-step chain queried at `D`; acyclicity is
certified by an explicit order-respecting measure. -/
theorem get_steps_topological_witness :
    Acyclic chain4 ∧
    ∃ l, get_steps chain4 "D" = some l ∧ l.Nodup ∧
      (∀ x, x ∈ l ↔ Relation.ReflTransGen (RelOf chain4) x "D") ∧
      (Acyclic chain4 → ∀ pr ∈ chain4.rels, pr.1 ∈ l → pr.2 ∈ l → Before l pr.1 pr.2) := by
  have hacy : Acyclic chain4 := acyclic_of_measure
    (fun x => if x = "A" then 0 else if x = "B" then 1 else if x = "C" then 2 else 3)
    (by decide)
  exact ⟨hacy, get_steps_topological chain4 "D" (by decide)⟩

/-! ### C8: the steps invariant over operation traces -/

/-- A trace element: one call of the Sequencer's mutating API. -/
inductive Op where
  | opAddStep (s : String)
  | opAdd (p s : String)
  | opRemove (p s : String)
  | opRemoveStep (s : String)
deriving Repr, DecidableEq

/-- Modelled from the spec: applying one API call to a state.  A failing
`remove` raises and therefore leaves the state unchanged (spec.md §7: every
mutating operation either fully applies or fully fails before mutating). -/
def applyOp (g : Sequencer) : Op → Sequencer
  | .opAddStep s => add_step g s
  | .opAdd p s => add g p s
  | .opRemove p s => (remove g p s).getD g
  | .opRemoveStep s => remove_step g s

/-- Running a trace from the empty Sequencer. -/
def run (ops : List Op) : Sequencer := ops.foldl applyOp Sequencer.empty

/-- The step names registered by a trace: arguments of `add_step` and
endpoints of `add`. -/
def mentionedSteps : List Op → List String
  | [] => []
  | Op.opAddStep s :: t => s :: mentionedSteps t
  | Op.opAdd p s :: t => p :: s :: mentionedSteps t
  | Op.opRemove _ _ :: t => mentionedSteps t
  | Op.opRemoveStep _ :: t => mentionedSteps t

/-- The trace never purges a step. -/
def noRemoveStep : List Op → Bool
  | [] => true
  | Op.opRemoveStep _ :: _ => false
  | _ :: t => noRemoveStep t

/-- Every endpoint of a recorded relation is a known step. -/
def WfSteps (g : Sequencer) : Prop :=
  ∀ pr ∈ g.rels, pr.1 ∈ g.steps ∧ pr.2 ∈ g.steps

lemma mem_add_steps_iff (g : Sequencer) (p s x : String) :
    x ∈ (add g p s).steps ↔ x ∈ g.steps ∨ x = p ∨ x = s := by
  rw [add_steps_eq, mem_add_step_steps, mem_add_step_steps]
  tauto

lemma add_rels_sub (g : Sequencer) (p s : String) :
    ∀ pr ∈ (add g p s).rels, pr ∈ g.rels ∨ pr = (p, s) := by
  intro pr hpr
  unfold add at hpr
  dsimp only at hpr
  split at hpr
  · rw [add_step_rels, add_step_rels] at hpr
    exact Or.inl hpr
  · simp only at hpr
    rw [add_step_rels, add_step_rels] at hpr
    rcases List.mem_append.mp hpr with h | h
    · exact Or.inl h
    · simp only [List.mem_singleton] at h
      exact Or.inr h

lemma wf_add_step {g : Sequencer} (hwf : WfSteps g) (s : String) :
    WfSteps (add_step g s) := by
  intro pr hpr
  rw [add_step_rels] at hpr
  obtain ⟨h1, h2⟩ := hwf pr hpr
  exact ⟨(mem_add_step_steps g _ s).mpr (Or.inl h1),
    (mem_add_step_steps g _ s).mpr (Or.inl h2)⟩

lemma wf_add {g : Sequencer} (hwf : WfSteps g) (p s : String) :
    WfSteps (add g p s) := by
  intro pr hpr
  rcases add_rels_sub g p s pr hpr with h | h
  · obtain ⟨h1, h2⟩ := hwf pr h
    exact ⟨(mem_add_steps_iff g p s _).mpr (Or.inl h1),
      (mem_add_steps_iff g p s _).mpr (Or.inl h2)⟩
  · rw [h]
    exact ⟨mem_add_steps_left g p s, mem_add_steps_right g p s⟩

lemma remove_getD_steps (g : Sequencer) (p s : String) :
    ((remove g p s).getD g).steps = g.steps := by
  unfold remove
  split <;> rfl

lemma wf_remove {g : Sequencer} (hwf : WfSteps g) (p s : String) :
    WfSteps ((remove g p s).getD g) := by
  intro pr hpr
  rw [remove_getD_steps]
  refine hwf pr ?_
  unfold remove at hpr
  split at hpr
  · simp only [Option.getD_some] at hpr
    exact (List.mem_filter.mp hpr).1
  · simpa using hpr

lemma wf_remove_step {g : Sequencer} (hwf : WfSteps g) (s : String) :
    WfSteps (remove_step g s) := by
  intro pr hpr
  unfold remove_step at hpr ⊢
  simp only [List.mem_filter] at hpr
  obtain ⟨hmem, hne⟩ := hpr
  simp only [decide_eq_true_eq] at hne
  obtain ⟨h1, h2⟩ := hwf pr hmem
  constructor <;> simp only [List.mem_filter, decide_eq_true_eq]
  · exact ⟨h1, hne.1⟩
  · exact ⟨h2, hne.2⟩

lemma wf_apply {g : Sequencer} (hwf : WfSteps g) (op : Op) : WfSteps (applyOp g op) := by
  cases op with
  | opAddStep s => exact wf_add_step hwf s
  | opAdd p s => exact wf_add hwf p s
  | opRemove p s => exact wf_remove hwf p s
  | opRemoveStep s => exact wf_remove_step hwf s

lemma wf_run_from : ∀ (ops : List Op) (g : Sequencer), WfSteps g →
    WfSteps (ops.foldl applyOp g) := by
  intro ops
  induction ops with
  | nil =>
    intro g hwf
    exact hwf
  | cons op t ih =>
    intro g hwf
    rw [List.foldl_cons]
    exact ih _ (wf_apply hwf op)

lemma steps_run_from : ∀ (ops : List Op), noRemoveStep ops = true →
    ∀ (g : Sequencer) (x : String),
      x ∈ (ops.foldl applyOp g).steps ↔ x ∈ g.steps ∨ x ∈ mentionedSteps ops := by
  intro ops
  induction ops with
  | nil =>
    intro _ g x
    simp [mentionedSteps]
  | cons op t ih =>
    intro hno g x
    rw [List.foldl_cons]
    cases op with
    | opAddStep s =>
      have hno' : noRemoveStep t = true := hno
      simp only [applyOp]
      rw [ih hno' (add_step g s) x, mem_add_step_steps]
      simp only [mentionedSteps, List.mem_cons]
      tauto
    | opAdd p s =>
      have hno' : noRemoveStep t = true := hno
      simp only [applyOp]
      rw [ih hno' (add g p s) x, mem_add_steps_iff]
      simp only [mentionedSteps, List.mem_cons]
      tauto
    | opRemove p s =>
      have hno' : noRemoveStep t = true := hno
      simp only [applyOp]
      rw [ih hno' _ x]
      simp only [remove_getD_steps, mentionedSteps]
    | opRemoveStep s =>
      exact absurd hno (by simp [noRemoveStep])

/-- C8: (a) after any trace of operations from the empty Sequencer, every
endpoint of a recorded relation is a member of `steps`; (b) on a trace that
never purges a step, `is_step` is true exactly for the names explicitly
registered by `add_step` or implied as an endpoint of an `add`, and false
otherwise. -/
theorem steps_invariant :
    (∀ ops : List Op, ∀ pr ∈ (run ops).rels,
      pr.1 ∈ (run ops).steps ∧ pr.2 ∈ (run ops).steps) ∧
    (∀ ops : List Op, noRemoveStep ops = true →
      ∀ x, is_step (run ops) x = true ↔ x ∈ mentionedSteps ops) := by
  constructor
  · intro ops
    exact wf_run_from ops Sequencer.empty (fun pr hpr => absurd hpr (List.not_mem_nil _))
  · intro ops hno x
    unfold run
    rw [show is_step (ops.foldl applyOp Sequencer.empty) x = true ↔
      x ∈ (ops.foldl applyOp Sequencer.empty).steps by simp [is_step]]
    rw [steps_run_from ops hno Sequencer.empty x]
    simp [Sequencer.empty]

/-- C8 witness: a concrete trace with an `add`, an `add_step` and a
(successful) `remove`. -/
theorem steps_invariant_witness :
    noRemoveStep [Op.opAdd "A" "B", Op.opAddStep "C", Op.opRemove "A" "B"] = true ∧
    (is_step (run [Op.opAdd "A" "B", Op.opAddStep "C", Op.opRemove "A" "B"]) "A" = true ↔
      "A" ∈ mentionedSteps [Op.opAdd "A" "B", Op.opAddStep "C", Op.opRemove "A" "B"]) ∧
    (("A", "B") ∈ (run [Op.opAdd "A" "B", Op.opAddStep "C"]).rels →
      ("A", "B").1 ∈ (run [Op.opAdd "A" "B", Op.opAddStep "C"]).steps ∧
      ("A", "B").2 ∈ (run [Op.opAdd "A" "B", Op.opAddStep "C"]).steps) :=
  ⟨by decide,
   steps_invariant.2 [Op.opAdd "A" "B", Op.opAddStep "C", Op.opRemove "A" "B"] (by decide) "A",
   steps_invariant.1 [Op.opAdd "A" "B", Op.opAddStep "C"] ("A", "B")⟩

/-- C1 counterexample: on the cyclic state `cycle3` the result of
`get_steps('C')` contains both endpoints of the added relation `('C','A')`
but `'C'` does not appear strictly before `'A'`, so the claim's ordering
clause fails on a state whose relation graph has a cycle. -/
theorem get_steps_order_counterexample :
    get_steps cycle3 "C" = some ["A", "B", "C"] ∧
    ("C", "A") ∈ cycle3.rels ∧ "C" ∈ ["A", "B", "C"] ∧ "A" ∈ ["A", "B", "C"] ∧
    ¬ Before ["A", "B", "C"] "C" "A" := by
  refine ⟨by decide, by decide, by decide, by decide, by decide⟩

end Distlib

namespace Metadata

/-! ## Part 2: metadata version negotiation and defaults
Embedded from src/distlib/metadata.py. -/

/-- A metadata field value as stored in `LegacyMetadata._fields`: a string, a
list of strings, a list of pairs (Project-URL tuples), or Python's `None`. -/
inductive MetaValue where
  | vStr (s : String)
  | vList (l : List String)
  | vPairs (l : List (String × String))
  | vNone
deriving Repr, DecidableEq

/-- metadata.py line 51. -/
def PKG_INFO_PREFERRED_VERSION : String := "1.1"

/-- metadata.py lines 54-57. -/
def _241_FIELDS : List String :=
  ["Metadata-Version", "Name", "Version", "Platform",
   "Summary", "Description",
   "Keywords", "Home-page", "Author", "Author-email",
   "License"]

/-- metadata.py lines 59-63. -/
def _314_FIELDS : List String :=
  ["Metadata-Version", "Name", "Version", "Platform",
   "Supported-Platform", "Summary", "Description",
   "Keywords", "Home-page", "Author", "Author-email",
   "License", "Classifier", "Download-URL", "Obsoletes",
   "Provides", "Requires"]

/-- metadata.py lines 65-66. -/
def _314_MARKERS : List String :=
  ["Obsoletes", "Provides", "Requires", "Classifier", "Download-URL"]

/-- metadata.py lines 68-74. -/
def _345_FIELDS : List String :=
  ["Metadata-Version", "Name", "Version", "Platform",
   "Supported-Platform", "Summary", "Description",
   "Keywords", "Home-page", "Author", "Author-email",
   "Maintainer", "Maintainer-email", "License",
   "Classifier", "Download-URL", "Obsoletes-Dist",
   "Project-URL", "Provides-Dist", "Requires-Dist",
   "Requires-Python", "Requires-External"]

/-- metadata.py lines 76-78. -/
def _345_MARKERS : List String :=
  ["Provides-Dist", "Requires-Dist", "Requires-Python",
   "Obsoletes-Dist", "Requires-External", "Maintainer",
   "Maintainer-email", "Project-URL"]

/-- metadata.py lines 80-88. -/
def _426_FIELDS : List String :=
  ["Metadata-Version", "Name", "Version", "Platform",
   "Supported-Platform", "Summary", "Description",
   "Keywords", "Home-page", "Author", "Author-email",
   "Maintainer", "Maintainer-email", "License",
   "Classifier", "Download-URL", "Obsoletes-Dist",
   "Project-URL", "Provides-Dist", "Requires-Dist",
   "Requires-Python", "Requires-External", "Private-Version",
   "Obsoleted-By", "Setup-Requires-Dist", "Extension",
   "Provides-Extra"]

/-- metadata.py lines 90-91. -/
def _426_MARKERS : List String :=
  ["Private-Version", "Provides-Extra", "Obsoleted-By",
   "Setup-Requires-Dist", "Extension"]

/-- metadata.py lines 93-97: the union of all field lists (a set in the
source; membership in this concatenation is the same predicate). -/
def _ALL_FIELDS : List String :=
  _241_FIELDS ++ _314_FIELDS ++ _345_FIELDS ++ _426_FIELDS

/-- metadata.py line 124: `value in ([], 'UNKNOWN', None)` — the values a
field may hold that `_best_version` skips. -/
def ignoredValue : MetaValue → Bool
  | MetaValue.vList [] => true
  | MetaValue.vPairs [] => true
  | MetaValue.vStr "UNKNOWN" => true
  | MetaValue.vNone => true
  | _ => false

/-- metadata.py lines 122-126: the keys whose values are not skipped. -/
def keysOf (fields : List (String × MetaValue)) : List String :=
  (fields.filter (fun kv => !ignoredValue kv.2)).map Prod.fst

/-- metadata.py line 132-133: drop '1.0' when a key is outside its fields. -/
def prune241 (pv : List String) (key : String) : List String :=
  if key ∉ _241_FIELDS ∧ "1.0" ∈ pv then pv.erase "1.0" else pv

/-- metadata.py line 134-135. -/
def prune314 (pv : List String) (key : String) : List String :=
  if key ∉ _314_FIELDS ∧ "1.1" ∈ pv then pv.erase "1.1" else pv

/-- metadata.py line 136-137. -/
def prune345 (pv : List String) (key : String) : List String :=
  if key ∉ _345_FIELDS ∧ "1.2" ∈ pv then pv.erase "1.2" else pv

/-- metadata.py line 138-139. -/
def prune426 (pv : List String) (key : String) : List String :=
  if key ∉ _426_FIELDS ∧ "2.0" ∈ pv then pv.erase "2.0" else pv

/-- metadata.py lines 131-139: the body of the `for key in keys` loop — the
four sequential conditional removals. -/
def pruneKey (pv : List String) (key : String) : List String :=
  prune426 (prune345 (prune314 (prune241 pv key) key) key) key

/-- metadata.py lines 128-139: the surviving candidate versions. -/
def possible_versions (keys : List String) : List String :=
  keys.foldl pruneKey ["1.0", "1.1", "1.2", "2.0"]

/-- metadata.py lines 116-120: `_has_marker`. -/
def _has_marker (keys markers : List String) : Bool :=
  markers.any (fun m => decide (m ∈ keys))

/-- metadata.py lines 141-168: the rest of `_best_version` once the keys are
extracted.  `none` models raising `MetadataConflictError`. -/
def _best_version_keys (keys : List String) : Option String :=
  let pv := possible_versions keys
  if pv.length = 1 then pv.head?
  else if pv.length = 0 then none
  else
    let is_1_1 := decide ("1.1" ∈ pv) && _has_marker keys _314_MARKERS
    let is_1_2 := decide ("1.2" ∈ pv) && _has_marker keys _345_MARKERS
    let is_2_0 := decide ("2.0" ∈ pv) && _has_marker keys _426_MARKERS
    if is_1_1.toNat + is_1_2.toNat + is_2_0.toNat > 1 then none
    else if !is_1_1 && !is_1_2 && !is_2_0 && decide (PKG_INFO_PREFERRED_VERSION ∈ pv) then
      some PKG_INFO_PREFERRED_VERSION
    else if is_1_1 then some "1.1"
    else if is_1_2 then some "1.2"
    else some "2.0"

/-- metadata.py lines 114-168: `_best_version`. -/
def _best_version (fields : List (String × MetaValue)) : Option String :=
  _best_version_keys (keysOf fields)

/-- The field list a format version admits (`_version2fieldlist`,
metadata.py lines 102-111, on the four known versions). -/
def versionFields (v : String) : List String :=
  if v = "1.0" then _241_FIELDS
  else if v = "1.1" then _314_FIELDS
  else if v = "1.2" then _345_FIELDS
  else if v = "2.0" then _426_FIELDS
  else []

/-- Version `v` admits every key of `keys`. -/
def admits (v : String) (keys : List String) : Prop :=
  ∀ k ∈ keys, k ∈ versionFields v

/-! ### `LegacyMetadata` defaults (metadata.py lines 203-294, 502-529) -/

/-- metadata.py lines 206-210. -/
def _LISTFIELDS : List String :=
  ["Platform", "Classifier", "Obsoletes",
   "Requires", "Provides", "Obsoletes-Dist",
   "Provides-Dist", "Requires-Dist", "Requires-External",
   "Project-URL", "Supported-Platform", "Setup-Requires-Dist",
   "Provides-Extra", "Extension"]

/-- metadata.py line 211. -/
def _LISTTUPLEFIELDS : List String := ["Project-URL"]

/-- metadata.py line 213. -/
def _ELEMENTSFIELD : List String := ["Keywords"]

/-- metadata.py line 215. -/
def _UNICODEFIELDS : List String :=
  ["Author", "Maintainer", "Summary", "Description"]

/-- metadata.py lines 170-201. -/
def _ATTR2FIELD : List (String × String) :=
  [("metadata_version", "Metadata-Version"),
   ("name", "Name"),
   ("version", "Version"),
   ("platform", "Platform"),
   ("supported_platform", "Supported-Platform"),
   ("summary", "Summary"),
   ("description", "Description"),
   ("keywords", "Keywords"),
   ("home_page", "Home-page"),
   ("author", "Author"),
   ("author_email", "Author-email"),
   ("maintainer", "Maintainer"),
   ("maintainer_email", "Maintainer-email"),
   ("license", "License"),
   ("classifier", "Classifier"),
   ("download_url", "Download-URL"),
   ("obsoletes_dist", "Obsoletes-Dist"),
   ("provides_dist", "Provides-Dist"),
   ("requires_dist", "Requires-Dist"),
   ("setup_requires_dist", "Setup-Requires-Dist"),
   ("requires_python", "Requires-Python"),
   ("requires_external", "Requires-External"),
   ("requires", "Requires"),
   ("provides", "Provides"),
   ("obsoletes", "Obsoletes"),
   ("project_url", "Project-URL"),
   ("private_version", "Private-Version"),
   ("obsoleted_by", "Obsoleted-By"),
   ("extension", "Extension"),
   ("provides_extra", "Provides-Extra")]

namespace LegacyMetadata

/-- metadata.py lines 285-289: `_convert_name`. -/
def _convert_name (name : String) : String :=
  if name ∈ _ALL_FIELDS then name
  else
    let n := (name.replace "-" "_").toLower
    (_ATTR2FIELD.lookup n).getD n

/-- metadata.py lines 291-294: `_default_value`. -/
def _default_value (name : String) : MetaValue :=
  if name ∈ _LISTFIELDS ∨ name ∈ _ELEMENTSFIELD then MetaValue.vList []
  else MetaValue.vStr "UNKNOWN"

/-- metadata.py lines 502-529: `get`.  The `_fields` dict is an association
list; `default = none` models the `_MISSING` sentinel (no explicit default),
`default = some d` an explicit one.  The element-copying loop of the
list-field branch returns the stored list unchanged. -/
def get (fields : List (String × MetaValue)) (name : String)
    (default : Option MetaValue) : MetaValue :=
  let n := _convert_name name
  match fields.lookup n with
  | Option.none =>
    match default with
    | some d => d
    | Option.none => _default_value n
  | some value =>
    if n ∈ _UNICODEFIELDS then value
    else if n ∈ _LISTFIELDS then
      match value with
      | MetaValue.vNone => MetaValue.vList []
      | MetaValue.vList l => MetaValue.vList l
      | MetaValue.vPairs l => MetaValue.vPairs l
      | v => v
    else if n ∈ _ELEMENTSFIELD then
      match value with
      | MetaValue.vStr s => MetaValue.vList (s.splitOn ",")
      | v => v
    else value

end LegacyMetadata

/-! ### Characterizing `possible_versions` -/

lemma mem_ite_erase {pv : List String} {c : Prop} [Decidable c] {w v : String}
    (hne : v ≠ w) :
    (v ∈ if c ∧ w ∈ pv then pv.erase w else pv) ↔ v ∈ pv := by
  split
  · exact List.mem_erase_of_ne hne
  · exact Iff.rfl

lemma mem_ite_erase_self {pv : List String} {c : Prop} [Decidable c] {w : String}
    (hnd : pv.Nodup) :
    (w ∈ if c ∧ w ∈ pv then pv.erase w else pv) ↔ w ∈ pv ∧ ¬ c := by
  split
  next h =>
    constructor
    · intro hw
      rcases (hnd.mem_erase_iff).mp hw with ⟨hne, _⟩
      exact absurd rfl hne
    · intro hw
      exact absurd h.1 hw.2
  next h =>
    constructor
    · intro hw
      exact ⟨hw, fun hc => h ⟨hc, hw⟩⟩
    · exact fun hw => hw.1

lemma nodup_ite_erase {pv : List String} {c : Prop} [Decidable c] {w : String}
    (hnd : pv.Nodup) :
    (if c ∧ w ∈ pv then pv.erase w else pv).Nodup := by
  split
  · exact hnd.erase w
  · exact hnd

lemma sublist_ite_erase {pv : List String} {c : Prop} [Decidable c] {w : String} :
    (if c ∧ w ∈ pv then pv.erase w else pv).Sublist pv := by
  split
  · exact List.erase_sublist w pv
  · exact List.Sublist.refl pv

lemma versionFields_10 : versionFields "1.0" = _241_FIELDS := rfl

lemma versionFields_11 : versionFields "1.1" = _314_FIELDS := rfl

lemma versionFields_12 : versionFields "1.2" = _345_FIELDS := rfl

lemma versionFields_20 : versionFields "2.0" = _426_FIELDS := rfl

lemma nodup_pruneKey {pv : List String} (key : String) (hnd : pv.Nodup) :
    (pruneKey pv key).Nodup := by
  unfold pruneKey prune426 prune345 prune314 prune241
  exact nodup_ite_erase (nodup_ite_erase (nodup_ite_erase (nodup_ite_erase hnd)))

lemma pruneKey_sublist {pv : List String} (key : String) :
    (pruneKey pv key).Sublist pv := by
  unfold pruneKey prune426 prune345 prune314 prune241
  exact sublist_ite_erase.trans (sublist_ite_erase.trans
    (sublist_ite_erase.trans sublist_ite_erase))

lemma mem_pruneKey {pv : List String} (key : String) (hnd : pv.Nodup) (v : String)
    (hv : v = "1.0" ∨ v = "1.1" ∨ v = "1.2" ∨ v = "2.0") :
    v ∈ pruneKey pv key ↔ v ∈ pv ∧ key ∈ versionFields v := by
  have hnd1 : (prune241 pv key).Nodup := nodup_ite_erase hnd
  have hnd2 : (prune314 (prune241 pv key) key).Nodup := nodup_ite_erase hnd1
  have hnd3 : (prune345 (prune314 (prune241 pv key) key) key).Nodup := nodup_ite_erase hnd2
  rcases hv with rfl | rfl | rfl | rfl
  · rw [versionFields_10]
    unfold pruneKey prune426 prune345 prune314
    rw [mem_ite_erase (by decide), mem_ite_erase (by decide), mem_ite_erase (by decide)]
    unfold prune241
    rw [mem_ite_erase_self hnd]
    simp only [not_not]
  · rw [versionFields_11]
    unfold pruneKey prune426 prune345
    rw [mem_ite_erase (by decide), mem_ite_erase (by decide)]
    unfold prune314
    rw [mem_ite_erase_self hnd1]
    unfold prune241
    rw [mem_ite_erase (by decide)]
    simp only [not_not]
  · rw [versionFields_12]
    unfold pruneKey prune426
    rw [mem_ite_erase (by decide)]
    unfold prune345
    rw [mem_ite_erase_self hnd2]
    unfold prune314 prune241
    rw [mem_ite_erase (by decide), mem_ite_erase (by decide)]
    simp only [not_not]
  · rw [versionFields_20]
    unfold pruneKey
    unfold prune426
    rw [mem_ite_erase_self hnd3]
    unfold prune345 prune314 prune241
    rw [mem_ite_erase (by decide), mem_ite_erase (by decide), mem_ite_erase (by decide)]
    simp only [not_not]

lemma foldl_pruneKey_spec : ∀ (keys pv : List String), pv.Nodup →
    (keys.foldl pruneKey pv).Nodup ∧ (keys.foldl pruneKey pv).Sublist pv ∧
    (∀ v, (v = "1.0" ∨ v = "1.1" ∨ v = "1.2" ∨ v = "2.0") →
      (v ∈ keys.foldl pruneKey pv ↔ v ∈ pv ∧ ∀ k ∈ keys, k ∈ versionFields v)) := by
  intro keys
  induction keys with
  | nil =>
    intro pv hnd
    exact ⟨hnd, List.Sublist.refl pv, fun v _ => by simp⟩
  | cons k ks ih =>
    intro pv hnd
    rw [List.foldl_cons]
    obtain ⟨hnd', hsub', hmem'⟩ := ih (pruneKey pv k) (nodup_pruneKey k hnd)
    refine ⟨hnd', hsub'.trans (pruneKey_sublist k), ?_⟩
    intro v hv
    rw [hmem' v hv, mem_pruneKey k hnd v hv]
    constructor
    · rintro ⟨⟨h1, h2⟩, h3⟩
      refine ⟨h1, ?_⟩
      intro q hq
      rcases List.mem_cons.mp hq with rfl | hq'
      · exact h2
      · exact h3 q hq'
    · rintro ⟨h1, h2⟩
      exact ⟨⟨h1, h2 k (List.mem_cons_self _ _)⟩,
        fun q hq => h2 q (List.mem_cons_of_mem _ hq)⟩

lemma possible_versions_nodup (keys : List String) : (possible_versions keys).Nodup :=
  (foldl_pruneKey_spec keys ["1.0", "1.1", "1.2", "2.0"] (by decide)).1

lemma possible_versions_sublist (keys : List String) :
    (possible_versions keys).Sublist ["1.0", "1.1", "1.2", "2.0"] :=
  (foldl_pruneKey_spec keys ["1.0", "1.1", "1.2", "2.0"] (by decide)).2.1

lemma mem_possible_versions (keys : List String) (v : String)
    (hv : v = "1.0" ∨ v = "1.1" ∨ v = "1.2" ∨ v = "2.0") :
    v ∈ possible_versions keys ↔ admits v keys := by
  unfold possible_versions admits
  rw [(foldl_pruneKey_spec keys ["1.0", "1.1", "1.2", "2.0"] (by decide)).2.2 v hv]
  have hvmem : v ∈ (["1.0", "1.1", "1.2", "2.0"] : List String) := by
    rcases hv with rfl | rfl | rfl | rfl <;> decide
  simp [hvmem]

lemma mem_pv_four {keys : List String} {v : String}
    (h : v ∈ possible_versions keys) :
    v = "1.0" ∨ v = "1.1" ∨ v = "1.2" ∨ v = "2.0" := by
  have := (possible_versions_sublist keys).subset h
  simpa using this

/-! ### `_best_version` never reaches the incompatible-marker branch -/

lemma has_marker_iff (keys ms : List String) :
    _has_marker keys ms = true ↔ ∃ m ∈ ms, m ∈ keys := by
  simp [_has_marker]

lemma no_marker_345 {keys : List String} (h : admits "1.1" keys) :
    _has_marker keys _345_MARKERS = false := by
  by_contra hb
  rw [Bool.not_eq_false, has_marker_iff] at hb
  obtain ⟨m, hm, hmk⟩ := hb
  have hmem := h m hmk
  rw [versionFields_11] at hmem
  exact (by decide : ∀ x ∈ _345_MARKERS, x ∉ _314_FIELDS) m hm hmem

lemma no_marker_426_of_11 {keys : List String} (h : admits "1.1" keys) :
    _has_marker keys _426_MARKERS = false := by
  by_contra hb
  rw [Bool.not_eq_false, has_marker_iff] at hb
  obtain ⟨m, hm, hmk⟩ := hb
  have hmem := h m hmk
  rw [versionFields_11] at hmem
  exact (by decide : ∀ x ∈ _426_MARKERS, x ∉ _314_FIELDS) m hm hmem

lemma no_marker_426_of_12 {keys : List String} (h : admits "1.2" keys) :
    _has_marker keys _426_MARKERS = false := by
  by_contra hb
  rw [Bool.not_eq_false, has_marker_iff] at hb
  obtain ⟨m, hm, hmk⟩ := hb
  have hmem := h m hmk
  rw [versionFields_12] at hmem
  exact (by decide : ∀ x ∈ _426_MARKERS, x ∉ _345_FIELDS) m hm hmem

lemma admits_11_of_10 {keys : List String} (h : admits "1.0" keys) :
    admits "1.1" keys := by
  intro k hk
  have hmem := h k hk
  rw [versionFields_10] at hmem
  rw [versionFields_11]
  exact (by decide : ∀ x ∈ _241_FIELDS, x ∈ _314_FIELDS) k hmem

lemma best_version_keys_some {keys : List String} {a b : String} {rest : List String}
    (hE : possible_versions keys = a :: b :: rest) :
    ∃ w, _best_version_keys keys = some w ∧ w ∈ possible_versions keys := by
  have hnd := possible_versions_nodup keys
  rw [hE] at hnd
  have hab : a ≠ b := by
    rcases List.nodup_cons.mp hnd with ⟨hna, _⟩
    intro h
    exact hna (h ▸ List.mem_cons_self b rest)
  have haPV : a ∈ possible_versions keys := by
    rw [hE]
    exact List.mem_cons_self _ _
  have hbPV : b ∈ possible_versions keys := by
    rw [hE]
    exact List.mem_cons_of_mem _ (List.mem_cons_self _ _)
  have hlen1 : ¬ ((possible_versions keys).length = 1) := by
    rw [hE]
    simp
  have hlen0 : ¬ ((possible_versions keys).length = 0) := by
    rw [hE]
    simp
  have h20 : "1.1" ∉ possible_versions keys → "2.0" ∈ possible_versions keys := by
    intro h11
    by_contra h20n
    have ha4 := mem_pv_four haPV
    have hb4 := mem_pv_four hbPV
    have h10 : "1.0" ∈ possible_versions keys := by
      rcases ha4 with rfl | rfl | rfl | rfl
      · exact haPV
      · exact absurd haPV h11
      · rcases hb4 with rfl | rfl | rfl | rfl
        · exact hbPV
        · exact absurd hbPV h11
        · exact absurd rfl hab
        · exact absurd hbPV h20n
      · exact absurd haPV h20n
    have hadm : admits "1.1" keys :=
      admits_11_of_10 ((mem_possible_versions keys "1.0" (by tauto)).mp h10)
    exact h11 ((mem_possible_versions keys "1.1" (by tauto)).mpr hadm)
  have hbody : _best_version_keys keys =
      (let pv := possible_versions keys
       let is_1_1 := decide ("1.1" ∈ pv) && _has_marker keys _314_MARKERS
       let is_1_2 := decide ("1.2" ∈ pv) && _has_marker keys _345_MARKERS
       let is_2_0 := decide ("2.0" ∈ pv) && _has_marker keys _426_MARKERS
       if is_1_1.toNat + is_1_2.toNat + is_2_0.toNat > 1 then none
       else if !is_1_1 && !is_1_2 && !is_2_0 &&
           decide (PKG_INFO_PREFERRED_VERSION ∈ pv) then
         some PKG_INFO_PREFERRED_VERSION
       else if is_1_1 then some "1.1"
       else if is_1_2 then some "1.2"
       else some "2.0") := by
    simp only [_best_version_keys]
    rw [if_neg hlen1, if_neg hlen0]
  rw [hbody]
  cases hq1 : decide ("1.1" ∈ possible_versions keys) && _has_marker keys _314_MARKERS with
  | true =>
    obtain ⟨hq1a, hq1b⟩ := Bool.and_eq_true _ _ |>.mp hq1
    have h11PV : "1.1" ∈ possible_versions keys := of_decide_eq_true hq1a
    have hadm11 : admits "1.1" keys := (mem_possible_versions keys "1.1" (by tauto)).mp h11PV
    cases hq2 : decide ("1.2" ∈ possible_versions keys) && _has_marker keys _345_MARKERS with
    | true =>
      obtain ⟨_, hq2b⟩ := Bool.and_eq_true _ _ |>.mp hq2
      rw [no_marker_345 hadm11] at hq2b
      exact absurd hq2b (by simp)
    | false =>
      cases hq3 : decide ("2.0" ∈ possible_versions keys) && _has_marker keys _426_MARKERS with
      | true =>
        obtain ⟨_, hq3b⟩ := Bool.and_eq_true _ _ |>.mp hq3
        rw [no_marker_426_of_11 hadm11] at hq3b
        exact absurd hq3b (by simp)
      | false =>
        refine ⟨"1.1", ?_, h11PV⟩
        simp [hq1, hq2, hq3]
  | false =>
    cases hq2 : decide ("1.2" ∈ possible_versions keys) && _has_marker keys _345_MARKERS with
    | true =>
      obtain ⟨hq2a, _⟩ := Bool.and_eq_true _ _ |>.mp hq2
      have h12PV : "1.2" ∈ possible_versions keys := of_decide_eq_true hq2a
      have hadm12 : admits "1.2" keys := (mem_possible_versions keys "1.2" (by tauto)).mp h12PV
      cases hq3 : decide ("2.0" ∈ possible_versions keys) && _has_marker keys _426_MARKERS with
      | true =>
        obtain ⟨_, hq3b⟩ := Bool.and_eq_true _ _ |>.mp hq3
        rw [no_marker_426_of_12 hadm12] at hq3b
        exact absurd hq3b (by simp)
      | false =>
        refine ⟨"1.2", ?_, h12PV⟩
        simp [hq1, hq2, hq3]
    | false =>
      cases hq3 : decide ("2.0" ∈ possible_versions keys) && _has_marker keys _426_MARKERS with
      | true =>
        obtain ⟨hq3a, _⟩ := Bool.and_eq_true _ _ |>.mp hq3
        have h20PV : "2.0" ∈ possible_versions keys := of_decide_eq_true hq3a
        refine ⟨"2.0", ?_, h20PV⟩
        simp [hq1, hq2, hq3]
      | false =>
        by_cases hp : "1.1" ∈ possible_versions keys
        · have hd : decide ("1.1" ∈ possible_versions keys) = true := decide_eq_true hp
          rw [hd, Bool.true_and] at hq1
          refine ⟨"1.1", ?_, hp⟩
          simp [hq1, hq2, hq3, PKG_INFO_PREFERRED_VERSION, hp]
        · refine ⟨"2.0", ?_, h20 hp⟩
          simp [hq1, hq2, hq3, PKG_INFO_PREFERRED_VERSION, hp]

lemma best_version_keys_spec (keys : List String) :
    (_best_version_keys keys = Option.none ↔
      ∀ v, (v = "1.0" ∨ v = "1.1" ∨ v = "1.2" ∨ v = "2.0") → ¬ admits v keys) ∧
    (∀ v, _best_version_keys keys = some v →
      (v = "1.0" ∨ v = "1.1" ∨ v = "1.2" ∨ v = "2.0") ∧ admits v keys) := by
  rcases hE : possible_versions keys with _ | ⟨a, _ | ⟨b, rest⟩⟩
  · have hres : _best_version_keys keys = Option.none := by
      simp [_best_version_keys, hE]
    constructor
    · constructor
      · intro _ v hv hadm
        have hmem := (mem_possible_versions keys v hv).mpr hadm
        rw [hE] at hmem
        exact absurd hmem (List.not_mem_nil v)
      · intro _
        exact hres
    · intro v hv
      rw [hres] at hv
      exact absurd hv (by simp)
  · have hres : _best_version_keys keys = some a := by
      simp [_best_version_keys, hE]
    have haPV : a ∈ possible_versions keys := by
      rw [hE]
      exact List.mem_cons_self _ _
    have ha4 := mem_pv_four haPV
    have hadm := (mem_possible_versions keys a ha4).mp haPV
    constructor
    · constructor
      · intro h
        rw [hres] at h
        exact absurd h (by simp)
      · intro hall
        exact absurd hadm (hall a ha4)
    · intro v hv
      rw [hres] at hv
      have hav := Option.some.inj hv
      rw [← hav]
      exact ⟨ha4, hadm⟩
  · obtain ⟨w, hres, hwPV⟩ := best_version_keys_some hE
    have hw4 := mem_pv_four hwPV
    have hadm := (mem_possible_versions keys w hw4).mp hwPV
    constructor
    · constructor
      · intro h
        rw [hres] at h
        exact absurd h (by simp)
      · intro hall
        exact absurd hadm (hall w hw4)
    · intro v hv
      rw [hres] at hv
      have hwv := Option.some.inj hv
      rw [← hwv]
      exact ⟨hw4, hadm⟩

/-- C9 (amended): `_best_version` ignores fields whose value is `[]`,
`'UNKNOWN'` or `None`, and raises `MetadataConflictError` (modelled as
`none`) exactly when no format version among 1.0, 1.1, 1.2 and 2.0 admits
all remaining fields; otherwise it returns one of those versions and the
returned version admits all remaining fields.  (The dedicated
incompatible-marker conflict branch can never fire, because each version's
marker fields are disjoint from the field lists of the earlier versions.) -/
theorem best_version_spec (fields : List (String × MetaValue)) :
    (_best_version fields = Option.none ↔
      ∀ v, (v = "1.0" ∨ v = "1.1" ∨ v = "1.2" ∨ v = "2.0") →
        ¬ admits v (keysOf fields)) ∧
    (∀ v, _best_version fields = some v →
      (v = "1.0" ∨ v = "1.1" ∨ v = "1.2" ∨ v = "2.0") ∧ admits v (keysOf fields)) :=
  best_version_keys_spec (keysOf fields)

/-- C9 witness: metadata carrying only a `Name` detects version 1.1. -/
theorem best_version_spec_witness :
    _best_version [("Name", MetaValue.vStr "demo")] = some "1.1" ∧
    (("1.1" = "1.0" ∨ "1.1" = "1.1" ∨ "1.1" = "1.2" ∨ "1.1" = "2.0") ∧
      admits "1.1" (keysOf [("Name", MetaValue.vStr "demo")])) :=
  ⟨by decide, (best_version_spec [("Name", MetaValue.vStr "demo")]).2 "1.1" (by decide)⟩

/-- C9 counterexample: marker fields of version 1.2 (`Maintainer`) and of
version 2.0 (`Private-Version`) are both present with non-ignored values,
yet `_best_version` returns `'2.0'` instead of raising
`MetadataConflictError`, refuting the claim's "raises ... exactly when ...
marker fields from more than one of versions 1.1, 1.2 and 2.0 are
present". -/
theorem best_version_counterexample :
    "Maintainer" ∈ _345_MARKERS ∧ "Private-Version" ∈ _426_MARKERS ∧
    "Maintainer" ∈ keysOf
      [("Maintainer", MetaValue.vStr "m"), ("Private-Version", MetaValue.vStr "p")] ∧
    "Private-Version" ∈ keysOf
      [("Maintainer", MetaValue.vStr "m"), ("Private-Version", MetaValue.vStr "p")] ∧
    _best_version
      [("Maintainer", MetaValue.vStr "m"), ("Private-Version", MetaValue.vStr "p")] =
      some "2.0" := by
  refine ⟨by decide, by decide, by decide, by decide, by decide⟩

/-! ### C10: defaults of `LegacyMetadata.get` -/

/-- C10: for a valid metadata field name that is not set, `get` (and hence
`__getitem__`) with no explicit default returns `[]` for list-valued and
`Keywords` fields and the string `'UNKNOWN'` otherwise (the function is
total, so it never raises). -/
theorem get_unset_default (fields : List (String × MetaValue)) (name : String)
    (h1 : name ∈ _ALL_FIELDS) (h2 : fields.lookup name = Option.none) :
    LegacyMetadata.get fields name Option.none =
      (if name ∈ _LISTFIELDS ∨ name ∈ _ELEMENTSFIELD then MetaValue.vList []
       else MetaValue.vStr "UNKNOWN") := by
  have hc : LegacyMetadata._convert_name name = name := by
    unfold LegacyMetadata._convert_name
    rw [if_pos h1]
  unfold LegacyMetadata.get
  dsimp only
  rw [hc, h2]
  rfl

/-- C10 witness: the unset list field `Requires-Dist` and the unset string
field `Author` on empty metadata. -/
theorem get_unset_default_witness :
    ("Requires-Dist" ∈ _ALL_FIELDS ∧
      LegacyMetadata.get [] "Requires-Dist" Option.none =
        (if "Requires-Dist" ∈ _LISTFIELDS ∨ "Requires-Dist" ∈ _ELEMENTSFIELD then
          MetaValue.vList [] else MetaValue.vStr "UNKNOWN")) ∧
    ("Author" ∈ _ALL_FIELDS ∧
      LegacyMetadata.get [] "Author" Option.none =
        (if "Author" ∈ _LISTFIELDS ∨ "Author" ∈ _ELEMENTSFIELD then
          MetaValue.vList [] else MetaValue.vStr "UNKNOWN")) :=
  ⟨⟨by decide, get_unset_default [] "Requires-Dist" (by decide) rfl⟩,
   ⟨by decide, get_unset_default [] "Author" (by decide) rfl⟩⟩

end Metadata
